import Mathlib

/-!
Verification of the `ProducerConsumer` bounded-concurrency scheduler of
datalad (`datalad.support.parallel`).  The implementation module itself is
not part of the source tree available here (only its tests and callers
are), so the engine is modelled from the specification: items are pulled
from a finite stream (which may raise after its last item), admitted by a
pluggable `safe_to_consume` predicate against the set of in-flight items,
dispatched to at most `jobs` concurrent workers, and their result records
are released to the caller in producer order while per-item failures are
accumulated into a single aggregate error.

The model is a nondeterministic small-step transition system: worker
completion order is unconstrained, so theorems quantifying over all
reachable states cover every interleaving the real thread pool could
exhibit.
-/

namespace DataladParallel

/-- Modelled from the spec: the `ProducerConsumer` object of
`datalad.support.parallel` (absent from the available sources).  It bundles
the three injected contracts of §6 of the spec: a finite item stream
(`streamItems`, followed by `streamErr` when the producer raises after its
last item), a consumer returning the full drained sequence of result
records or a per-item error, the `safe_to_consume` admission predicate
(candidate item against the in-flight snapshot), and the worker count
`jobs`. -/
structure ProducerConsumer (Item Rec ε : Type) where
  streamItems : List Item
  streamErr : Option ε
  consume : Item → Except ε (List Rec)
  safe_to_consume : Item → List Item → Bool
  jobs : Nat

/-- Modelled from the spec: the state of one run of the scheduler driver
(§4.5): the not-yet-pulled suffix of the item stream, whether the producer
has raised, the producer-order list of pulled items, the pending queue,
the in-flight registry, and the completed items with their consumption
outcomes in completion order. -/
structure PCState (Item Rec ε : Type) where
  streamRest : List Item
  prodFailed : Bool
  pulled : List Item
  pending : List Item
  inFlight : List Item
  done : List (Item × Except ε (List Rec))

/-- Modelled from the spec: constructing a `ProducerConsumer` performs no
production or consumption; it only sets up the initial iteration state. -/
def pcInit {Item Rec ε : Type} (cfg : ProducerConsumer Item Rec ε) :
    PCState Item Rec ε :=
  { streamRest := cfg.streamItems
    prodFailed := false
    pulled := []
    pending := []
    inFlight := []
    done := [] }

/-- Modelled from the spec: one step of the scheduler driver (§4.5).
`pull` reads the next item from the stream into the pending queue;
`prodFail` records a producer failure once the stream raises, aborting
intake; `dispatch` scans the pending queue for the first admissible item
and hands it to a free worker slot (at most `jobs` in flight); `complete`
finishes the consumption of any in-flight item, recording the consumer's
full outcome.  Worker completion order is deliberately unconstrained. -/
inductive Step {Item Rec ε : Type} (cfg : ProducerConsumer Item Rec ε) :
    PCState Item Rec ε → PCState Item Rec ε → Prop where
  | pull (s : PCState Item Rec ε) (x : Item) (rest : List Item) :
      s.streamRest = x :: rest →
      s.prodFailed = false →
      Step cfg s { s with
        streamRest := rest
        pulled := s.pulled ++ [x]
        pending := s.pending ++ [x] }
  | prodFail (s : PCState Item Rec ε) (e : ε) :
      s.streamRest = [] →
      cfg.streamErr = some e →
      s.prodFailed = false →
      Step cfg s { s with prodFailed := true }
  | dispatch (s : PCState Item Rec ε) (p1 p2 : List Item) (x : Item) :
      s.prodFailed = false →
      s.inFlight.length < cfg.jobs →
      s.pending = p1 ++ x :: p2 →
      cfg.safe_to_consume x s.inFlight = true →
      (∀ y ∈ p1, cfg.safe_to_consume y s.inFlight = false) →
      Step cfg s { s with
        pending := p1 ++ p2
        inFlight := s.inFlight ++ [x] }
  | complete (s : PCState Item Rec ε) (f1 f2 : List Item) (x : Item) :
      s.inFlight = f1 ++ x :: f2 →
      Step cfg s { s with
        inFlight := f1 ++ f2
        done := s.done ++ [(x, cfg.consume x)] }

/-- States reachable from the freshly constructed scheduler. -/
inductive Reachable {Item Rec ε : Type} (cfg : ProducerConsumer Item Rec ε) :
    PCState Item Rec ε → Prop where
  | init : Reachable cfg (pcInit cfg)
  | step {s t : PCState Item Rec ε} :
      Reachable cfg s → Step cfg s t → Reachable cfg t

/-- No scheduler step applies: the run has terminated. -/
def Stuck {Item Rec ε : Type} (cfg : ProducerConsumer Item Rec ε)
    (s : PCState Item Rec ε) : Prop :=
  ∀ t, ¬ Step cfg s t

/-- Explicit characterisation of terminated runs: nothing in flight, the
stream is exhausted without a pending producer error (or the producer
failure has been recorded, which stops both intake and dispatch), and no
pending item is admissible against the empty in-flight set. -/
def Final {Item Rec ε : Type} (cfg : ProducerConsumer Item Rec ε)
    (s : PCState Item Rec ε) : Prop :=
  s.inFlight = [] ∧
  (s.prodFailed = true ∨ (s.streamRest = [] ∧ cfg.streamErr = none)) ∧
  (s.prodFailed = true ∨ cfg.jobs = 0 ∨
    ∀ y ∈ s.pending, cfg.safe_to_consume y [] = false)

/-- Records of one consumption outcome (a failed consumption emitted no
usable records). -/
def recordsOf {Rec ε : Type} : Except ε (List Rec) → List Rec
  | .ok rs => rs
  | .error _ => []

/-- Modelled from the spec: the result-aggregator view (§4.4).  The
records releasable at a state are those of the longest producer-order
prefix of pulled items whose consumption has completed (successfully or
not); failed predecessors hold back nothing but contribute no records. -/
def released {Item Rec ε : Type} [DecidableEq Item]
    (s : PCState Item Rec ε) : List Rec :=
  (s.pulled.takeWhile
      (fun x => (s.done.find? (fun p => decide (p.1 = x))).isSome)).flatMap
    (fun x =>
      match s.done.find? (fun p => decide (p.1 = x)) with
      | some p => recordsOf p.2
      | none => [])

/-- The recorded per-item failures of a state, in completion order. -/
def failures {Item Rec ε : Type} (s : PCState Item Rec ε) :
    List (Item × ε) :=
  s.done.filterMap (fun p =>
    match p.2 with
    | .error e => some (p.1, e)
    | .ok _ => none)

/-- Modelled from the spec: the aggregate run failure
(`IncompleteResultsError`): it carries every failed item paired with its
captured error, plus the producer error when the stream itself raised. -/
structure IncompleteResultsError (Item ε : Type) where
  failed : List (Item × ε)
  producer_error : Option ε

/-- Modelled from the spec: the error raised at the end of a run (§7):
`none` when the producer succeeded and no consumer failure was recorded,
otherwise the aggregate error bundling all per-item failures and the
producer error if any. -/
def aggregateError {Item Rec ε : Type} (cfg : ProducerConsumer Item Rec ε)
    (s : PCState Item Rec ε) : Option (IncompleteResultsError Item ε) :=
  match s.prodFailed, failures s with
  | false, [] => none
  | pf, fs => some { failed := fs
                     producer_error := if pf then cfg.streamErr else none }

/-- The conservation invariant of a run: the stream splits into the pulled
prefix and the unpulled suffix; every pulled item sits in exactly one of
pending, in-flight or done (as multisets); recorded outcomes are the
consumer's; never more than `jobs` items in flight; and the producer-failed
flag is only ever set when the stream was exhausted and does raise. -/
structure Inv {Item Rec ε : Type} (cfg : ProducerConsumer Item Rec ε)
    (s : PCState Item Rec ε) : Prop where
  split : cfg.streamItems = s.pulled ++ s.streamRest
  count : (s.pulled : Multiset Item) =
    ↑s.pending + ↑s.inFlight + ↑(s.done.map Prod.fst)
  outcomes : ∀ p ∈ s.done, p.2 = cfg.consume p.1
  bound : s.inFlight.length ≤ cfg.jobs
  prodflag : s.prodFailed = true →
    s.streamRest = [] ∧ ∃ e, cfg.streamErr = some e

theorem reachable_inv {Item Rec ε : Type}
    {cfg : ProducerConsumer Item Rec ε} {s : PCState Item Rec ε}
    (h : Reachable cfg s) : Inv cfg s := by
  induction h with
  | init =>
    refine ⟨by simp [pcInit], by simp [pcInit], by simp [pcInit],
      by simp [pcInit], by simp [pcInit]⟩
  | step hr hstep ih =>
    cases hstep with
    | pull x rest hrest hpf =>
      refine ⟨?_, ?_, ih.outcomes, ih.bound, ?_⟩
      · dsimp only
        rw [List.append_assoc]
        simpa [hrest] using ih.split
      · have hc := ih.count
        dsimp only
        simp only [← Multiset.coe_add]
        rw [hc]
        abel
      · intro hcontra; simp [hpf] at hcontra
    | prodFail e hrest herr hpf =>
      exact ⟨ih.split, ih.count, ih.outcomes, ih.bound,
        fun _ => ⟨hrest, e, herr⟩⟩
    | dispatch p1 p2 x hpf hlt hpend hsafe hscan =>
      refine ⟨ih.split, ?_, ih.outcomes, ?_, ?_⟩
      · have hc := ih.count
        rw [hpend] at hc
        dsimp only
        simp only [← Multiset.coe_add, ← Multiset.cons_coe,
          ← Multiset.singleton_add, Multiset.coe_singleton] at hc ⊢
        rw [hc]
        abel
      · simpa using hlt
      · intro hcontra; simp [hpf] at hcontra
    | complete f1 f2 x hfl =>
      refine ⟨ih.split, ?_, ?_, ?_, ih.prodflag⟩
      · have hc := ih.count
        rw [hfl] at hc
        dsimp only
        simp only [List.map_append, List.map_cons, List.map_nil]
        simp only [← Multiset.coe_add, ← Multiset.cons_coe,
          ← Multiset.singleton_add, Multiset.coe_singleton] at hc ⊢
        rw [hc]
        abel
      · intro p hp
        dsimp only at hp
        simp only [List.mem_append, List.mem_singleton] at hp
        rcases hp with hp | hp
        · exact ih.outcomes p hp
        · rw [hp]
      · have hb := ih.bound
        rw [hfl] at hb
        dsimp only
        simp only [List.length_append, List.length_cons] at hb ⊢
        omega

/-- In a list containing some element satisfying `p`, there is a first
one: a split whose left part is `p`-free. -/
theorem exists_first_sat {α : Type} {p : α → Bool} {l : List α}
    (h : ∃ x ∈ l, p x = true) :
    ∃ l1 x l2, l = l1 ++ x :: l2 ∧ p x = true ∧ ∀ y ∈ l1, p y = false := by
  induction l with
  | nil => simp at h
  | cons a t ih =>
    by_cases ha : p a = true
    · exact ⟨[], a, t, rfl, ha, by simp⟩
    · have ht : ∃ x ∈ t, p x = true := by
        obtain ⟨x, hx, hpx⟩ := h
        rcases List.mem_cons.mp hx with hx | hx
        · exact absurd (hx ▸ hpx) ha
        · exact ⟨x, hx, hpx⟩
      obtain ⟨l1, x, l2, heq, hpx, hfree⟩ := ih ht
      refine ⟨a :: l1, x, l2, by simp [heq], hpx, ?_⟩
      intro y hy
      rcases List.mem_cons.mp hy with hy | hy
      · subst hy; exact Bool.eq_false_iff.mpr ha
      · exact hfree y hy

/-- The explicit `Final` characterisation coincides with being stuck:
no scheduler step applies exactly at `Final` states, so `Final` states are
precisely the terminated runs. -/
theorem final_iff_stuck {Item Rec ε : Type}
    (cfg : ProducerConsumer Item Rec ε) (s : PCState Item Rec ε) :
    Final cfg s ↔ Stuck cfg s := by
  constructor
  · rintro ⟨hfl, hstream, hpend⟩ t hstep
    cases hstep with
    | pull x rest hrest hpf =>
      rcases hstream with h | ⟨h, _⟩
      · rw [hpf] at h; cases h
      · rw [h] at hrest; cases hrest
    | prodFail e hrest herr hpf =>
      rcases hstream with h | ⟨_, h⟩
      · rw [hpf] at h; cases h
      · rw [h] at herr; cases herr
    | dispatch p1 p2 x hpf hlt hpendeq hsafe hscan =>
      rcases hpend with h | h | h
      · rw [hpf] at h; cases h
      · rw [h] at hlt; exact absurd hlt (by omega)
      · have hx : x ∈ s.pending := by rw [hpendeq]; simp
        have := h x hx
        rw [hfl] at hsafe
        rw [this] at hsafe
        cases hsafe
    | complete f1 f2 x hfleq =>
      rw [hfl] at hfleq
      exact absurd hfleq.symm (List.append_ne_nil_of_right_ne_nil f1 (by simp))
  · intro hstuck
    refine ⟨?_, ?_, ?_⟩
    · cases hfl : s.inFlight with
      | nil => rfl
      | cons a t =>
        exact absurd (Step.complete s [] t a hfl)
          (hstuck { s with inFlight := [] ++ t
                           done := s.done ++ [(a, cfg.consume a)] })
    · by_cases hpf : s.prodFailed = true
      · exact Or.inl hpf
      · have hpf0 : s.prodFailed = false := Bool.eq_false_iff.mpr hpf
        refine Or.inr ⟨?_, ?_⟩
        · cases hrest : s.streamRest with
          | nil => rfl
          | cons x rest =>
            exact absurd (Step.pull s x rest hrest hpf0) (hstuck _)
        · cases herr : cfg.streamErr with
          | none => rfl
          | some e =>
            cases hrest : s.streamRest with
            | nil =>
              exact absurd (Step.prodFail s e hrest herr hpf0) (hstuck _)
            | cons x rest =>
              exact absurd (Step.pull s x rest hrest hpf0) (hstuck _)
    · by_cases hpf : s.prodFailed = true
      · exact Or.inl hpf
      · have hpf0 : s.prodFailed = false := Bool.eq_false_iff.mpr hpf
        by_cases hj : cfg.jobs = 0
        · exact Or.inr (Or.inl hj)
        · refine Or.inr (Or.inr ?_)
          intro y hy
          by_contra hne
          have hfl : s.inFlight = [] := by
            cases hfl : s.inFlight with
            | nil => rfl
            | cons a t =>
              exact absurd (Step.complete s [] t a hfl) (hstuck _)
          have hadm : ∃ z ∈ s.pending,
              cfg.safe_to_consume z s.inFlight = true := by
            refine ⟨y, hy, ?_⟩
            rw [hfl]
            exact Bool.of_not_eq_false hne
          obtain ⟨l1, z, l2, heq, hpz, hfree⟩ := exists_first_sat hadm
          have hlt : s.inFlight.length < cfg.jobs := by
            rw [hfl]; simpa using Nat.pos_of_ne_zero hj
          exact absurd (Step.dispatch s l1 l2 z hpf0 hlt heq hpz hfree)
            (hstuck _)

/-- When the producer never raises, no reachable state carries the
producer-failed flag. -/
theorem prodFailed_false_of_no_streamErr {Item Rec ε : Type}
    {cfg : ProducerConsumer Item Rec ε} {s : PCState Item Rec ε}
    (hr : Reachable cfg s) (he : cfg.streamErr = none) :
    s.prodFailed = false := by
  by_contra hne
  obtain ⟨_, e, hsome⟩ := (reachable_inv hr).prodflag (Bool.of_not_eq_false hne)
  rw [he] at hsome
  cases hsome

/-- Shape of a terminated run when the producer never raises, at least one
worker slot exists and every item is admissible against an empty in-flight
set: everything was pulled in producer order, nothing is left pending or
in flight, and the completed outcomes are exactly the consumer outcomes of
the stream items, in some completion order. -/
theorem final_run_complete {Item Rec ε : Type}
    {cfg : ProducerConsumer Item Rec ε} {s : PCState Item Rec ε}
    (hr : Reachable cfg s) (hf : Final cfg s)
    (hj : 1 ≤ cfg.jobs) (he : cfg.streamErr = none)
    (hsafe : ∀ x, cfg.safe_to_consume x [] = true) :
    s.prodFailed = false ∧ s.pulled = cfg.streamItems ∧ s.pending = [] ∧
      s.inFlight = [] ∧
      s.done.Perm (cfg.streamItems.map (fun x => (x, cfg.consume x))) := by
  obtain ⟨hfl, hstream, hpend⟩ := hf
  have inv := reachable_inv hr
  have hpf : s.prodFailed = false := prodFailed_false_of_no_streamErr hr he
  have hrest : s.streamRest = [] := by
    rcases hstream with h | ⟨h, _⟩
    · rw [hpf] at h; cases h
    · exact h
  have hpulled : s.pulled = cfg.streamItems := by
    have := inv.split
    rw [hrest, List.append_nil] at this
    exact this.symm
  have hpending : s.pending = [] := by
    rcases hpend with h | h | h
    · rw [hpf] at h; cases h
    · omega
    · cases hp : s.pending with
      | nil => rfl
      | cons y t =>
        have := h y (by rw [hp]; simp)
        rw [hsafe y] at this
        cases this
  refine ⟨hpf, hpulled, hpending, hfl, ?_⟩
  have hcount := inv.count
  rw [hpending, hfl, hpulled] at hcount
  simp only [Multiset.coe_nil, zero_add] at hcount
  have hperm : (s.done.map Prod.fst).Perm cfg.streamItems :=
    (Multiset.coe_eq_coe.mp hcount).symm
  have hdone : s.done = (s.done.map Prod.fst).map
      (fun x => (x, cfg.consume x)) := by
    rw [List.map_map]
    conv_lhs => rw [show s.done = s.done.map id from (List.map_id s.done).symm]
    refine List.map_congr_left ?_
    intro p hp
    have := inv.outcomes p hp
    simp only [Function.comp, id]
    exact Prod.ext rfl this
  rw [hdone]
  exact hperm.map (fun x => (x, cfg.consume x))

/-- At a state where every pulled item is completed with the consumer's
outcome, the releasable output is the concatenation, in producer order, of
each pulled item's records. -/
theorem released_eq_of_all_done {Item Rec ε : Type} [DecidableEq Item]
    {cfg : ProducerConsumer Item Rec ε} {s : PCState Item Rec ε}
    (hout : ∀ p ∈ s.done, p.2 = cfg.consume p.1)
    (hmem : ∀ x ∈ s.pulled, x ∈ s.done.map Prod.fst) :
    released s = s.pulled.flatMap (fun x => recordsOf (cfg.consume x)) := by
  have hsome : ∀ x ∈ s.pulled,
      (s.done.find? (fun p => decide (p.1 = x))).isSome = true := by
    intro x hx
    rw [List.find?_isSome]
    obtain ⟨p, hp, hfst⟩ := List.mem_map.mp (hmem x hx)
    exact ⟨p, hp, by simp [hfst]⟩
  unfold released
  rw [List.takeWhile_eq_self_iff.mpr hsome]
  refine List.flatMap_congr ?_
  intro x hx
  obtain ⟨p, hfind⟩ := Option.isSome_iff_exists.mp (hsome x hx)
  rw [hfind]
  have hpx : p.1 = x := by
    have := List.find?_some hfind
    simpa using this
  have hpd : p ∈ s.done := List.mem_of_find?_eq_some hfind
  dsimp only
  rw [hout p hpd, hpx]

/-- The per-item failure extraction used by `failures`, as a function of
the stream: an item maps to itself paired with its error when its
consumption raises. -/
def errOf {Item Rec ε : Type} (consume : Item → Except ε (List Rec))
    (x : Item) : Option (Item × ε) :=
  match consume x with
  | .error e => some (x, e)
  | .ok _ => none

/-- The recorded failures of a run whose completed outcomes are a
permutation of the stream outcomes are a permutation of the stream's
failing items paired with their errors. -/
theorem failures_perm_of_done_perm {Item Rec ε : Type}
    {cfg : ProducerConsumer Item Rec ε} {s : PCState Item Rec ε}
    (hperm : s.done.Perm (cfg.streamItems.map (fun x => (x, cfg.consume x)))) :
    (failures s).Perm (cfg.streamItems.filterMap (errOf cfg.consume)) := by
  unfold failures
  have h := hperm.filterMap (fun p : Item × Except ε (List Rec) =>
    match p.2 with
    | .error e => some (p.1, e)
    | .ok _ => none)
  refine h.trans (List.Perm.of_eq ?_)
  rw [List.filterMap_map]
  rfl

theorem reachable_of_eq {Item Rec ε : Type}
    {cfg : ProducerConsumer Item Rec ε} {s t : PCState Item Rec ε}
    (h : Reachable cfg s) (heq : s = t) : Reachable cfg t :=
  heq ▸ h

/-- State of the canonical pulling phase: the prefix `a` of the stream has
been pulled into pending, the suffix `b` is still unread. -/
def pullState {Item Rec ε : Type} (cfg : ProducerConsumer Item Rec ε)
    (a b : List Item) : PCState Item Rec ε :=
  { streamRest := b
    prodFailed := false
    pulled := a
    pending := a
    inFlight := []
    done := [] }

theorem reach_pullState {Item Rec ε : Type}
    (cfg : ProducerConsumer Item Rec ε) (a b : List Item)
    (h : cfg.streamItems = a ++ b) : Reachable cfg (pullState cfg a b) := by
  induction a using List.reverseRecOn generalizing b with
  | nil =>
    refine reachable_of_eq (Reachable.init) ?_
    simp at h
    simp [pcInit, pullState, h]
  | append_singleton l x ih =>
    have hl : cfg.streamItems = l ++ (x :: b) := by
      rw [h]; simp
    have hprev := ih (x :: b) hl
    refine reachable_of_eq
      (Reachable.step hprev (Step.pull (pullState cfg l (x :: b)) x b rfl rfl))
      ?_
    simp [pullState]

/-- State of the canonical processing phase: everything pulled, the items
of `processed` consumed in producer order, the items of `rest` pending. -/
def midState {Item Rec ε : Type} (cfg : ProducerConsumer Item Rec ε)
    (processed rest : List Item) : PCState Item Rec ε :=
  { streamRest := []
    prodFailed := false
    pulled := processed ++ rest
    pending := rest
    inFlight := []
    done := processed.map (fun x => (x, cfg.consume x)) }

theorem reach_midState_step {Item Rec ε : Type}
    (cfg : ProducerConsumer Item Rec ε) (p r : List Item) (x : Item)
    (hj : 1 ≤ cfg.jobs) (hx : cfg.safe_to_consume x [] = true)
    (h : Reachable cfg (midState cfg p (x :: r))) :
    Reachable cfg (midState cfg (p ++ [x]) r) := by
  have hdisp : Step cfg (midState cfg p (x :: r))
      { midState cfg p (x :: r) with
        pending := [] ++ r
        inFlight := [] ++ [x] } :=
    Step.dispatch (midState cfg p (x :: r)) [] r x rfl (by simpa using hj)
      rfl hx (by simp)
  have h2 := Reachable.step h hdisp
  have hcomp : Step cfg
      { midState cfg p (x :: r) with pending := [] ++ r
                                     inFlight := [] ++ [x] }
      { midState cfg p (x :: r) with
        pending := [] ++ r
        inFlight := ([] : List Item) ++ []
        done := (midState cfg p (x :: r)).done ++ [(x, cfg.consume x)] } :=
    Step.complete _ [] [] x rfl
  refine reachable_of_eq (Reachable.step h2 hcomp) ?_
  simp [midState]

theorem reach_midState_all {Item Rec ε : Type}
    (cfg : ProducerConsumer Item Rec ε) (hj : 1 ≤ cfg.jobs)
    (hsafe : ∀ x, cfg.safe_to_consume x [] = true) (p r : List Item)
    (h : Reachable cfg (midState cfg p r)) :
    Reachable cfg (midState cfg (p ++ r) []) := by
  induction r generalizing p with
  | nil => simpa using h
  | cons x r2 ih =>
    have h2 := reach_midState_step cfg p r2 x hj (hsafe x) h
    have h3 := ih (p ++ [x]) h2
    refine reachable_of_eq h3 ?_
    simp [midState]

/-- The canonical terminated state of a run: every stream item pulled and
consumed in producer order, and the producer failure recorded afterwards
when the stream raises at its end. -/
def finalStateSeq {Item Rec ε : Type} (cfg : ProducerConsumer Item Rec ε) :
    PCState Item Rec ε :=
  { streamRest := []
    prodFailed := cfg.streamErr.isSome
    pulled := cfg.streamItems
    pending := []
    inFlight := []
    done := cfg.streamItems.map (fun x => (x, cfg.consume x)) }

theorem reach_finalStateSeq {Item Rec ε : Type}
    (cfg : ProducerConsumer Item Rec ε) (hj : 1 ≤ cfg.jobs)
    (hsafe : ∀ x, cfg.safe_to_consume x [] = true) :
    Reachable cfg (finalStateSeq cfg) := by
  have h0 : Reachable cfg (midState cfg [] cfg.streamItems) := by
    refine reachable_of_eq (reach_pullState cfg cfg.streamItems [] (by simp))
      ?_
    simp [pullState, midState]
  have h1 := reach_midState_all cfg hj hsafe [] cfg.streamItems h0
  cases herr : cfg.streamErr with
  | none =>
    refine reachable_of_eq h1 ?_
    simp [midState, finalStateSeq, herr]
  | some e =>
    have hstep : Step cfg (midState cfg ([] ++ cfg.streamItems) [])
        { midState cfg ([] ++ cfg.streamItems) [] with prodFailed := true } :=
      Step.prodFail (midState cfg ([] ++ cfg.streamItems) []) e rfl herr rfl
    refine reachable_of_eq (Reachable.step h1 hstep) ?_
    simp [midState, finalStateSeq, herr]

theorem final_finalStateSeq {Item Rec ε : Type}
    (cfg : ProducerConsumer Item Rec ε) :
    Final cfg (finalStateSeq cfg) := by
  refine ⟨rfl, ?_, Or.inr (Or.inr (by simp [finalStateSeq]))⟩
  cases herr : cfg.streamErr with
  | none => exact Or.inr ⟨rfl, rfl⟩
  | some e => exact Or.inl (by simp [finalStateSeq, herr])

/-- With one worker slot and every item admissible against an empty
in-flight set, the scheduler is deterministic: completed, in-flight and
pending items, read in this sequence, always line up with producer
order. -/
theorem jobs1_order {Item Rec ε : Type}
    {cfg : ProducerConsumer Item Rec ε} (hj : cfg.jobs = 1)
    (hsafe : ∀ x, cfg.safe_to_consume x [] = true)
    {s : PCState Item Rec ε} (hr : Reachable cfg s) :
    s.done.map Prod.fst ++ s.inFlight ++ s.pending = s.pulled := by
  induction hr with
  | init => simp [pcInit]
  | step hr hstep ih =>
    cases hstep with
    | pull x rest hrest hpf =>
      dsimp only
      rw [← ih]
      simp [List.append_assoc]
    | prodFail e hrest herr hpf =>
      exact ih
    | dispatch p1 p2 x hpf hlt hpend hsafex hscan =>
      rename_i s
      have hfl : s.inFlight = [] := by
        rw [hj] at hlt
        exact List.length_eq_zero.mp (by omega)
      have hp1 : p1 = [] := by
        cases hp : p1 with
        | nil => rfl
        | cons y t =>
          have := hscan y (by rw [hp]; simp)
          rw [hfl, hsafe y] at this
          cases this
      dsimp only
      rw [← ih, hpend, hp1, hfl]
      simp
    | complete f1 f2 x hfleq =>
      rename_i s
      have hb := (reachable_inv hr).bound
      rw [hfleq, hj] at hb
      simp only [List.length_append, List.length_cons] at hb
      have hf1 : f1 = [] := List.length_eq_zero.mp (by omega)
      have hf2 : f2 = [] := List.length_eq_zero.mp (by omega)
      dsimp only
      rw [← ih, hfleq, hf1, hf2]
      simp

/-- Modelled from the spec: the sequential reference oracle (§8,
"degenerate sequential case") — a straightforward single-threaded fold
over the items that consumes each item in producer order, concatenating
its result records and collecting its failure, independent of the
concurrent engine above. -/
def sequentialFold {Item Rec ε : Type}
    (consume : Item → Except ε (List Rec)) :
    List Item → List Rec × List (Item × ε)
  | [] => ([], [])
  | x :: xs =>
    let rest := sequentialFold consume xs
    match consume x with
    | .ok rs => (rs ++ rest.1, rest.2)
    | .error e => (rest.1, (x, e) :: rest.2)

theorem sequentialFold_eq {Item Rec ε : Type}
    (consume : Item → Except ε (List Rec)) (l : List Item) :
    sequentialFold consume l =
      (l.flatMap (fun x => recordsOf (consume x)),
       l.filterMap (errOf consume)) := by
  induction l with
  | nil => rfl
  | cons x xs ih =>
    simp only [sequentialFold, ih, List.flatMap_cons, List.filterMap_cons]
    cases h : consume x with
    | ok rs => simp [recordsOf, errOf, h]
    | error e => simp [recordsOf, errOf, h]

/-- The pulled items are always a permutation of pending, in-flight and
completed items taken together. -/
theorem pulled_perm {Item Rec ε : Type}
    {cfg : ProducerConsumer Item Rec ε} {s : PCState Item Rec ε}
    (inv : Inv cfg s) :
    s.pulled.Perm (s.pending ++ s.inFlight ++ s.done.map Prod.fst) := by
  have hc := inv.count
  rw [Multiset.coe_add, Multiset.coe_add] at hc
  exact Multiset.coe_eq_coe.mp hc

/-- The done list is determined by its items: each entry pairs an item
with the consumer's outcome on it. -/
theorem done_eq_outcomes {Item Rec ε : Type}
    {cfg : ProducerConsumer Item Rec ε} {s : PCState Item Rec ε}
    (hout : ∀ p ∈ s.done, p.2 = cfg.consume p.1) :
    s.done = (s.done.map Prod.fst).map (fun x => (x, cfg.consume x)) := by
  rw [List.map_map]
  conv_lhs => rw [show s.done = s.done.map id from (List.map_id s.done).symm]
  refine List.map_congr_left ?_
  intro p hp
  simp only [Function.comp, id]
  exact Prod.ext rfl (hout p hp)

theorem filterMap_errOf_singleton {Item Rec ε : Type}
    (consume : Item → Except ε (List Rec)) (l : List Item)
    (hnd : l.Nodup) (x0 : Item) (e0 : ε) (hx0 : x0 ∈ l)
    (hfail : consume x0 = .error e0)
    (hok : ∀ y ∈ l, y ≠ x0 → (consume y).isOk = true) :
    l.filterMap (errOf consume) = [(x0, e0)] := by
  induction l with
  | nil => cases hx0
  | cons a t ih =>
    rcases List.mem_cons.mp hx0 with h | h
    · subst h
      have ht : t.filterMap (errOf consume) = [] := by
        rw [List.filterMap_eq_nil]
        intro y hy
        have hne : y ≠ x0 := fun hc =>
          (List.nodup_cons.mp hnd).1 (hc ▸ hy)
        have := hok y (List.mem_cons_of_mem x0 hy) hne
        unfold errOf
        cases hc : consume y with
        | ok rs => rfl
        | error e => rw [hc] at this; cases this
      rw [List.filterMap_cons, show errOf consume x0 = some (x0, e0) by
        unfold errOf; rw [hfail], ht]
    · have hne : a ≠ x0 := fun hc =>
        (List.nodup_cons.mp hnd).1 (hc ▸ h)
      have ha := hok a (List.mem_cons_self a t) hne
      have hnone : errOf consume a = none := by
        unfold errOf
        cases hc : consume a with
        | ok rs => rfl
        | error e => rw [hc] at ha; cases ha
      rw [List.filterMap_cons, hnone]
      exact ih (List.nodup_cons.mp hnd).2 h
        (fun y hy hyne => hok y (List.mem_cons_of_mem a hy) hyne)

theorem filterMap_errOf_map_fst {Item Rec ε β : Type}
    (consume : Item → Except ε (List Rec)) (g : Item → β) (l : List Item) :
    (l.filterMap (errOf consume)).map (fun p => g p.1) =
      (l.filter (fun i => !(consume i).isOk)).map g := by
  induction l with
  | nil => rfl
  | cons a t ih =>
    rw [List.filterMap_cons, List.filter_cons]
    cases hc : consume a with
    | ok rs =>
      have h1 : errOf consume a = none := by unfold errOf; rw [hc]
      rw [h1]
      simp [ih, Except.isOk, Except.toBool]
    | error e =>
      have h1 : errOf consume a = some (a, e) := by unfold errOf; rw [hc]
      rw [h1]
      simp [ih, Except.isOk, Except.toBool]

/-- A dataset path, as a list of path components. -/
abbrev DsPath := List String

/-- `a` is a strict ancestor of `b`: a proper path-component prefix. -/
def isStrictAncestor (a b : DsPath) : Bool :=
  a.isPrefixOf b && a != b

/-- Modelled from the spec: the `no_parentds_in_futures` admission
predicate of `datalad.support.parallel` (absent from the available
sources): a path-like item is safe to consume exactly when no strict
ancestor of it is among the in-flight ("futures") items. -/
def no_parentds_in_futures (p : DsPath) (futures : List DsPath) : Bool :=
  ! futures.any (fun f => isStrictAncestor f p)

/-- Modelled from the spec: a result record of the `install` command as
the reference test reads it: the target path, plus the source URL when one
was given. -/
structure InstallItem where
  path : String
  source_url : Option String

/-- The identity the reference test recovers from a failed result record:
`r.get("source_url", r["path"])`. -/
def identityOf (r : InstallItem) : String :=
  r.source_url.getD r.path

instance : DecidableEq InstallItem := fun a b =>
  match a, b with
  | ⟨p1, u1⟩, ⟨p2, u2⟩ =>
    decidable_of_iff (p1 = p2 ∧ u1 = u2)
      (by rw [InstallItem.mk.injEq])

/-- The items of the stream, read off the completed outcomes of a
terminated run, are a permutation of the stream. -/
theorem done_fst_perm_streamItems {Item Rec ε : Type}
    {cfg : ProducerConsumer Item Rec ε} {s : PCState Item Rec ε}
    (hperm : s.done.Perm (cfg.streamItems.map (fun x => (x, cfg.consume x)))) :
    (s.done.map Prod.fst).Perm cfg.streamItems := by
  have h := hperm.map Prod.fst
  rwa [List.map_map,
    show (Prod.fst ∘ fun x => (x, cfg.consume x)) = id from rfl,
    List.map_id] at h

/-- At every terminated run of a non-raising stream with at least one
worker and no blocking admission on an idle pool, the released output is
the producer-order concatenation of each item's records. -/
theorem released_final_eq {Item Rec ε : Type} [DecidableEq Item]
    {cfg : ProducerConsumer Item Rec ε} {s : PCState Item Rec ε}
    (hr : Reachable cfg s) (hf : Final cfg s)
    (hj : 1 ≤ cfg.jobs) (he : cfg.streamErr = none)
    (hsafe : ∀ x, cfg.safe_to_consume x [] = true) :
    released s =
      cfg.streamItems.flatMap (fun x => recordsOf (cfg.consume x)) := by
  obtain ⟨hpf, hpulled, hpend, hfl, hperm⟩ :=
    final_run_complete hr hf hj he hsafe
  have hfst := done_fst_perm_streamItems hperm
  have hmem : ∀ x ∈ s.pulled, x ∈ s.done.map Prod.fst := by
    intro x hx
    rw [hfst.mem_iff]
    rwa [hpulled] at hx
  rw [released_eq_of_all_done (reachable_inv hr).outcomes hmem, hpulled]

/-!
## The claims

Each claim of the specification is settled by exactly one theorem below,
stated against the model above.  Since the implementation module is
absent, every definition involved is modelled from the spec.
-/

/-- C1: for every finite item stream, every `jobs ≥ 1`, a producer that
does not raise and the default always-admissible admission behaviour,
every terminated run — regardless of the order in which the workers
happened to finish, i.e. for every reachable final state of the
nondeterministic scheduler — releases exactly the concatenation, in
producer order, of each item's result records: every record of item `k`
is emitted strictly before any record of item `k+1`. -/
theorem output_in_producer_order {Item Rec ε : Type} [DecidableEq Item]
    (cfg : ProducerConsumer Item Rec ε) (s : PCState Item Rec ε)
    (hj : 1 ≤ cfg.jobs) (he : cfg.streamErr = none)
    (hsafe : ∀ x, cfg.safe_to_consume x [] = true)
    (hr : Reachable cfg s) (hf : Final cfg s) :
    released s =
      cfg.streamItems.flatMap (fun x => recordsOf (cfg.consume x)) :=
  released_final_eq hr hf hj he hsafe

/-- C6: at every reachable state of a run with a configured positive
worker count `jobs`, at most `jobs` items are simultaneously in the
dispatched-but-not-completed (in-flight) state. -/
theorem bounded_concurrency {Item Rec ε : Type}
    (cfg : ProducerConsumer Item Rec ε) (s : PCState Item Rec ε)
    (_hj : 1 ≤ cfg.jobs) (hr : Reachable cfg s) :
    s.inFlight.length ≤ cfg.jobs :=
  (reachable_inv hr).bound

/-- C7: with `jobs = 1` the engine degenerates to the sequential
reference: every terminated run releases exactly the records of the
straightforward single-threaded fold over the items, in the same order,
and records exactly its failures, in the same order. -/
theorem jobs1_refines_sequential_fold {Item Rec ε : Type} [DecidableEq Item]
    (cfg : ProducerConsumer Item Rec ε) (s : PCState Item Rec ε)
    (hj : cfg.jobs = 1) (he : cfg.streamErr = none)
    (hsafe : ∀ x, cfg.safe_to_consume x [] = true)
    (hr : Reachable cfg s) (hf : Final cfg s) :
    released s = (sequentialFold cfg.consume cfg.streamItems).1 ∧
      failures s = (sequentialFold cfg.consume cfg.streamItems).2 := by
  have hj1 : 1 ≤ cfg.jobs := by omega
  obtain ⟨hpf, hpulled, hpend, hfl, hperm⟩ :=
    final_run_complete hr hf hj1 he hsafe
  have horder := jobs1_order hj hsafe hr
  rw [hpend, hfl] at horder
  simp only [List.append_nil] at horder
  have hdone : s.done = cfg.streamItems.map (fun x => (x, cfg.consume x)) := by
    rw [done_eq_outcomes (reachable_inv hr).outcomes, horder, hpulled]
  constructor
  · rw [released_final_eq hr hf hj1 he hsafe, sequentialFold_eq]
  · rw [sequentialFold_eq]
    unfold failures
    rw [hdone, List.filterMap_map]
    rfl

/-- C10: construction performs no work: the freshly constructed scheduler
has pulled no item, holds nothing pending or in flight, has consumed
nothing, releases no record and raises no aggregate error — even when the
stream would raise immediately or the consumer always fails; production
and consumption happen only through iteration steps of the run. -/
theorem construction_performs_no_work {Item Rec ε : Type} [DecidableEq Item]
    (cfg : ProducerConsumer Item Rec ε) :
    (pcInit cfg).pulled = [] ∧ (pcInit cfg).pending = [] ∧
      (pcInit cfg).inFlight = [] ∧ (pcInit cfg).done = [] ∧
      (pcInit cfg).prodFailed = false ∧
      released (pcInit cfg) = [] ∧ failures (pcInit cfg) = [] ∧
      aggregateError cfg (pcInit cfg) = none :=
  ⟨rfl, rfl, rfl, rfl, rfl, rfl, rfl, rfl⟩

/-- C2: if the consumer raises for exactly one item of the stream, every
other item is still dispatched and consumed to completion (every stream
item has a recorded outcome), every item's result records are still
released in producer order, and the terminated run carries an aggregate
failure listing exactly that one failed item with its captured error. -/
theorem single_consumer_failure_isolated {Item Rec ε : Type}
    [DecidableEq Item]
    (cfg : ProducerConsumer Item Rec ε) (s : PCState Item Rec ε)
    (hj : 1 ≤ cfg.jobs) (he : cfg.streamErr = none)
    (hsafe : ∀ x, cfg.safe_to_consume x [] = true)
    (hnd : cfg.streamItems.Nodup) (x0 : Item) (e0 : ε)
    (hx0 : x0 ∈ cfg.streamItems) (hfail : cfg.consume x0 = .error e0)
    (hok : ∀ y ∈ cfg.streamItems, y ≠ x0 → (cfg.consume y).isOk = true)
    (hr : Reachable cfg s) (hf : Final cfg s) :
    (∀ y ∈ cfg.streamItems, y ∈ s.done.map Prod.fst) ∧
      released s =
        cfg.streamItems.flatMap (fun x => recordsOf (cfg.consume x)) ∧
      ∃ agg, aggregateError cfg s = some agg ∧
        agg.failed = [(x0, e0)] ∧ agg.producer_error = none := by
  obtain ⟨hpf, hpulled, hpend, hfl, hperm⟩ :=
    final_run_complete hr hf hj he hsafe
  have hfst := done_fst_perm_streamItems hperm
  have hfailures : failures s = [(x0, e0)] := by
    have hp := failures_perm_of_done_perm hperm
    rw [filterMap_errOf_singleton cfg.consume cfg.streamItems hnd x0 e0 hx0
      hfail hok] at hp
    exact List.perm_singleton.mp hp
  refine ⟨?_, released_final_eq hr hf hj he hsafe, ?_⟩
  · intro y hy
    rw [hfst.mem_iff]
    exact hy
  · refine ⟨⟨[(x0, e0)], none⟩, ?_, rfl, rfl⟩
    unfold aggregateError
    rw [hpf, hfailures]
    rfl

/-- C4: a producer failure is fatal: in any terminated run of a stream
raising after its last yielded item, the producer failure is recorded,
already-dispatched in-flight work has been drained (nothing remains in
flight), only already-yielded items were ever processed, and the run
surfaces an aggregate error carrying the producer error together with
the consumer failures gathered so far. -/
theorem producer_failure_fatal {Item Rec ε : Type}
    (cfg : ProducerConsumer Item Rec ε) (s : PCState Item Rec ε) (e : ε)
    (he : cfg.streamErr = some e)
    (hr : Reachable cfg s) (hf : Final cfg s) :
    s.prodFailed = true ∧ s.inFlight = [] ∧
      (∀ p ∈ s.done, p.1 ∈ cfg.streamItems) ∧
      ∃ agg, aggregateError cfg s = some agg ∧
        agg.producer_error = some e ∧ agg.failed = failures s := by
  obtain ⟨hfl, hstream, hpend⟩ := hf
  have hpf : s.prodFailed = true := by
    rcases hstream with h | ⟨_, h⟩
    · exact h
    · rw [he] at h; cases h
  have inv := reachable_inv hr
  refine ⟨hpf, hfl, ?_, ?_⟩
  · intro p hp
    have h1 : p.1 ∈ s.pulled := by
      rw [(pulled_perm inv).mem_iff]
      exact List.mem_append_right _ (List.mem_map_of_mem Prod.fst hp)
    rw [inv.split]
    exact List.mem_append_left _ h1
  · refine ⟨⟨failures s, some e⟩, ?_, rfl, rfl⟩
    unfold aggregateError
    rw [hpf]
    cases hfs : failures s with
    | nil =>
      rw [he]
      rfl
    | cons a t =>
      rw [he]
      rfl

/-- C5: a run that terminates with two or more recorded consumer failures
raises a single aggregate error carrying every failed item together with
that item's own captured error: membership in the aggregate's failed list
coincides exactly with being a stream item on which the consumer
raised. -/
theorem aggregate_error_reports_every_failure {Item Rec ε : Type}
    (cfg : ProducerConsumer Item Rec ε) (s : PCState Item Rec ε)
    (hj : 1 ≤ cfg.jobs) (he : cfg.streamErr = none)
    (hsafe : ∀ x, cfg.safe_to_consume x [] = true)
    (hr : Reachable cfg s) (hf : Final cfg s)
    (hmany : 2 ≤ (failures s).length) :
    ∃ agg, aggregateError cfg s = some agg ∧ agg.failed = failures s ∧
      ∀ i eSup, (i, eSup) ∈ agg.failed ↔
        i ∈ cfg.streamItems ∧ cfg.consume i = .error eSup := by
  obtain ⟨hpf, _, _, _, hperm⟩ := final_run_complete hr hf hj he hsafe
  have hp := failures_perm_of_done_perm hperm
  have hiff : ∀ i eSup, (i, eSup) ∈ failures s ↔
      i ∈ cfg.streamItems ∧ cfg.consume i = .error eSup := by
    intro i eSup
    rw [hp.mem_iff, List.mem_filterMap]
    constructor
    · rintro ⟨a, ha, hae⟩
      unfold errOf at hae
      cases hc : cfg.consume a with
      | ok rs => rw [hc] at hae; cases hae
      | error e2 =>
        rw [hc] at hae
        simp only [Option.some.injEq, Prod.mk.injEq] at hae
        obtain ⟨h1, h2⟩ := hae
        subst h1
        subst h2
        exact ⟨ha, hc⟩
    · rintro ⟨hi, hc⟩
      refine ⟨i, hi, ?_⟩
      unfold errOf
      rw [hc]
  cases hfs : failures s with
  | nil => rw [hfs] at hmany; simp at hmany
  | cons a t =>
    refine ⟨⟨failures s, none⟩, ?_, hfs, ?_⟩
    · unfold aggregateError
      rw [hpf, hfs]
      rfl
    · intro i eSup
      exact hiff i eSup

/-- C8: a result record whose content marks an error, yielded by a
consumer invocation that returns normally, is passed through to the
output like any other record and is not a recorded failure: when the
consumer never raises, every terminated run releases all records verbatim
and ends without an aggregate error — the engine, parametric in the
record type, never inspects record contents. -/
theorem error_status_records_pass_through {Item Rec ε : Type}
    [DecidableEq Item]
    (cfg : ProducerConsumer Item Rec ε) (s : PCState Item Rec ε)
    (hj : 1 ≤ cfg.jobs) (he : cfg.streamErr = none)
    (hsafe : ∀ x, cfg.safe_to_consume x [] = true)
    (hok : ∀ i ∈ cfg.streamItems, (cfg.consume i).isOk = true)
    (hr : Reachable cfg s) (hf : Final cfg s) :
    released s =
        cfg.streamItems.flatMap (fun x => recordsOf (cfg.consume x)) ∧
      failures s = [] ∧ aggregateError cfg s = none := by
  obtain ⟨hpf, _, _, _, hperm⟩ := final_run_complete hr hf hj he hsafe
  have hfailures : failures s = [] := by
    have hp := failures_perm_of_done_perm hperm
    have hnil : cfg.streamItems.filterMap (errOf cfg.consume) = [] := by
      rw [List.filterMap_eq_nil_iff]
      intro a ha
      have hia := hok a ha
      unfold errOf
      cases hc : cfg.consume a with
      | ok rs => rfl
      | error e => rw [hc] at hia; cases hia
    rw [hnil] at hp
    exact hp.eq_nil
  refine ⟨released_final_eq hr hf hj he hsafe, hfailures, ?_⟩
  unfold aggregateError
  rw [hpf, hfailures]

/-- C9: the aggregate failure exposes the recorded per-item failures as
its `failed` field, from each entry of which the failed item's identity
(its source URL when one was given, else its path) is recoverable: the
identities read off the aggregate's failed entries are exactly — up to
completion order — the identities of the stream items whose consumption
raised. -/
theorem failed_attribute_recovers_identities {Rec ε : Type}
    (cfg : ProducerConsumer InstallItem Rec ε)
    (s : PCState InstallItem Rec ε)
    (hj : 1 ≤ cfg.jobs) (he : cfg.streamErr = none)
    (hsafe : ∀ x, cfg.safe_to_consume x [] = true)
    (hr : Reachable cfg s) (hf : Final cfg s)
    (hfail : failures s ≠ []) :
    ∃ agg, aggregateError cfg s = some agg ∧ agg.failed = failures s ∧
      (agg.failed.map (fun p => identityOf p.1)).Perm
        ((cfg.streamItems.filter
            (fun i => !(cfg.consume i).isOk)).map identityOf) := by
  obtain ⟨hpf, _, _, _, hperm⟩ := final_run_complete hr hf hj he hsafe
  have hp := failures_perm_of_done_perm hperm
  have hmap := hp.map (fun p : InstallItem × ε => identityOf p.1)
  rw [filterMap_errOf_map_fst cfg.consume identityOf cfg.streamItems]
    at hmap
  cases hfs : failures s with
  | nil => exact absurd hfs hfail
  | cons a t =>
    refine ⟨⟨failures s, none⟩, ?_, hfs, ?_⟩
    · unfold aggregateError
      rw [hpf, hfs]
      rfl
    · exact hmap

/-- A two-item demo run over unrelated paths with the ancestor-based
admission predicate. -/
def cfgPaths : ProducerConsumer DsPath Unit Unit :=
  { streamItems := [["a"], ["b"]]
    streamErr := none
    consume := fun _ => .ok []
    safe_to_consume := no_parentds_in_futures
    jobs := 2 }

/-- The demo run after both pulls and the dispatch of `a`. -/
def pathsOneInFlight : PCState DsPath Unit Unit :=
  { streamRest := []
    prodFailed := false
    pulled := [["a"], ["b"]]
    pending := [["b"]]
    inFlight := [["a"]]
    done := [] }

/-- The demo run after both unrelated paths have been dispatched: both in
flight at once. -/
def pathsTwoInFlight : PCState DsPath Unit Unit :=
  { streamRest := []
    prodFailed := false
    pulled := [["a"], ["b"]]
    pending := []
    inFlight := [["a"], ["b"]]
    done := [] }

theorem reach_pathsOneInFlight : Reachable cfgPaths pathsOneInFlight := by
  have h0 := reach_pullState cfgPaths [["a"], ["b"]] [] rfl
  have hstep : Step cfgPaths (pullState cfgPaths [["a"], ["b"]] [])
      { pullState cfgPaths [["a"], ["b"]] [] with
        pending := [] ++ [["b"]]
        inFlight :=
          (pullState cfgPaths [["a"], ["b"]] []).inFlight ++ [["a"]] } :=
    Step.dispatch _ [] [["b"]] ["a"] rfl (by decide) rfl (by decide)
      (by simp)
  refine reachable_of_eq (Reachable.step h0 hstep) ?_
  simp [pullState, pathsOneInFlight]

theorem step_paths_dispatch_b :
    Step cfgPaths pathsOneInFlight pathsTwoInFlight := by
  have hstep : Step cfgPaths pathsOneInFlight
      { pathsOneInFlight with
        pending := ([] : List DsPath) ++ []
        inFlight := pathsOneInFlight.inFlight ++ [["b"]] } :=
    Step.dispatch _ [] [] ["b"] rfl (by decide) rfl (by decide) (by simp)
  have heq : ({ pathsOneInFlight with
      pending := ([] : List DsPath) ++ []
      inFlight := pathsOneInFlight.inFlight ++ [["b"]] }
        : PCState DsPath Unit Unit) = pathsTwoInFlight := by
    simp [pathsOneInFlight, pathsTwoInFlight]
  exact heq ▸ hstep

theorem reach_pathsTwoInFlight : Reachable cfgPaths pathsTwoInFlight :=
  Reachable.step reach_pathsOneInFlight step_paths_dispatch_b

/-- C3: under the ancestor-based admission predicate
`no_parentds_in_futures`, at no reachable state of a run is a path-like
item dispatched to a worker while a strict ancestor of it is still in
flight — a child is never handed to a worker before its parent's
consumption completed — while items of unrelated subtrees can be in
flight simultaneously (witnessed by a reachable state holding two
incomparable paths in flight at once). -/
theorem no_dispatch_while_ancestor_in_flight :
    (∀ (Rec ε : Type) (cfg : ProducerConsumer DsPath Rec ε),
      cfg.safe_to_consume = no_parentds_in_futures →
      ∀ s t : PCState DsPath Rec ε, Reachable cfg s → Step cfg s t →
        ∀ x, x ∈ t.inFlight → x ∉ s.inFlight →
          ∀ a ∈ s.inFlight, isStrictAncestor a x = false) ∧
    (∃ (cfg : ProducerConsumer DsPath Unit Unit)
        (s : PCState DsPath Unit Unit),
      cfg.safe_to_consume = no_parentds_in_futures ∧ Reachable cfg s ∧
      ∃ x y, x ∈ s.inFlight ∧ y ∈ s.inFlight ∧ x ≠ y ∧
        isStrictAncestor x y = false ∧ isStrictAncestor y x = false) := by
  constructor
  · intro Rec ε cfg hpred s t hr hstep x hxt hxs a ha
    cases hstep with
    | pull x2 rest h1 h2 => exact absurd hxt hxs
    | prodFail e h1 h2 h3 => exact absurd hxt hxs
    | dispatch p1 p2 x2 hpf hlt hpend hsafe hscan =>
      have hx2 : x = x2 := by
        rcases List.mem_append.mp hxt with h | h
        · exact absurd h hxs
        · simpa using h
      subst hx2
      rw [hpred] at hsafe
      unfold no_parentds_in_futures at hsafe
      rw [Bool.not_eq_true', List.any_eq_false] at hsafe
      exact Bool.eq_false_iff.mpr (hsafe a ha)
    | complete f1 f2 x2 hfleq =>
      exfalso
      apply hxs
      rw [hfleq]
      rcases List.mem_append.mp hxt with h | h
      · exact List.mem_append_left _ h
      · exact List.mem_append_right _ (List.mem_cons_of_mem _ h)
  · refine ⟨cfgPaths, pathsTwoInFlight, rfl, reach_pathsTwoInFlight,
      ["a"], ["b"], ?_, ?_, ?_, ?_, ?_⟩
    · simp [pathsTwoInFlight]
    · simp [pathsTwoInFlight]
    · decide
    · decide
    · decide

/-!
## Concrete runs

Small executable instances, mirroring the reference tests, used to
exercise the claim theorems on concrete inputs.
-/

/-- Items 0,1,2 with the consumer raising on item 1 only. -/
def cfgNat : ProducerConsumer Nat (Nat × String) String :=
  { streamItems := [0, 1, 2]
    streamErr := none
    consume := fun i =>
      if i = 1 then .error "boom" else .ok [(i, "ok")]
    safe_to_consume := fun _ _ => true
    jobs := 2 }

/-- The same run restricted to a single worker slot. -/
def cfgJobs1 : ProducerConsumer Nat (Nat × String) String :=
  { cfgNat with jobs := 1 }

/-- A consumer that never raises but marks every even item's record with
an error status, mirroring the `test_ProducerConsumer` records. -/
def cfgStatus : ProducerConsumer Nat (Nat × String) String :=
  { streamItems := [0, 1]
    streamErr := none
    consume := fun i => .ok [(i, if i % 2 = 1 then "ok" else "error")]
    safe_to_consume := fun _ _ => true
    jobs := 10 }

/-- A run in which the consumer raises on two of the three items. -/
def cfgTwoFailures : ProducerConsumer Nat (Nat × String) String :=
  { streamItems := [0, 1, 2]
    streamErr := none
    consume := fun i =>
      if i ≤ 1 then .error "boom" else .ok [(i, "ok")]
    safe_to_consume := fun _ _ => true
    jobs := 2 }

/-- A stream that raises after yielding its only item. -/
def cfgProdErr : ProducerConsumer Nat (Nat × String) String :=
  { streamItems := [7]
    streamErr := some "producer broke"
    consume := fun i => .ok [(i, "ok")]
    safe_to_consume := fun _ _ => true
    jobs := 2 }

/-- The `test_failed_install_multiple` scenario: five install targets,
of which the plain path `ds2` and the URL-sourced `///nonexisting`
fail. -/
def cfgInstall : ProducerConsumer InstallItem Nat String :=
  { streamItems :=
      [⟨"ds1", none⟩, ⟨"ds2", none⟩, ⟨"crcns", some "///crcns"⟩,
       ⟨"nonexisting", some "///nonexisting"⟩, ⟨"ds3", none⟩]
    streamErr := none
    consume := fun r =>
      if r.path = "ds2" ∨ r.source_url = some "///nonexisting" then
        .error "failed to install" else .ok [0]
    safe_to_consume := fun _ _ => true
    jobs := 5 }

theorem output_in_producer_order_witness :
    (1 ≤ cfgNat.jobs) ∧ cfgNat.streamErr = none ∧
      Reachable cfgNat (finalStateSeq cfgNat) ∧
      Final cfgNat (finalStateSeq cfgNat) ∧
      released (finalStateSeq cfgNat) =
        cfgNat.streamItems.flatMap (fun x => recordsOf (cfgNat.consume x)) :=
  ⟨by decide, rfl, reach_finalStateSeq cfgNat (by decide) (fun x => rfl),
   final_finalStateSeq cfgNat,
   output_in_producer_order cfgNat (finalStateSeq cfgNat) (by decide) rfl
     (fun x => rfl) (reach_finalStateSeq cfgNat (by decide) (fun x => rfl))
     (final_finalStateSeq cfgNat)⟩

theorem single_consumer_failure_isolated_witness :
    cfgNat.streamItems.Nodup ∧ (1 : Nat) ∈ cfgNat.streamItems ∧
      cfgNat.consume 1 = .error "boom" ∧
      (∀ y ∈ cfgNat.streamItems, y ≠ 1 → (cfgNat.consume y).isOk = true) ∧
      ((∀ y ∈ cfgNat.streamItems,
          y ∈ (finalStateSeq cfgNat).done.map Prod.fst) ∧
        released (finalStateSeq cfgNat) =
          cfgNat.streamItems.flatMap
            (fun x => recordsOf (cfgNat.consume x)) ∧
        ∃ agg, aggregateError cfgNat (finalStateSeq cfgNat) = some agg ∧
          agg.failed = [(1, "boom")] ∧ agg.producer_error = none) :=
  ⟨by decide, by decide, rfl, by decide,
   single_consumer_failure_isolated cfgNat (finalStateSeq cfgNat)
     (by decide) rfl (fun x => rfl) (by decide) 1 "boom" (by decide) rfl
     (by decide)
     (reach_finalStateSeq cfgNat (by decide) (fun x => rfl))
     (final_finalStateSeq cfgNat)⟩

theorem no_dispatch_while_ancestor_in_flight_witness :
    cfgPaths.safe_to_consume = no_parentds_in_futures ∧
      Reachable cfgPaths pathsOneInFlight ∧
      Step cfgPaths pathsOneInFlight pathsTwoInFlight ∧
      (∀ x, x ∈ pathsTwoInFlight.inFlight →
        x ∉ pathsOneInFlight.inFlight →
        ∀ a ∈ pathsOneInFlight.inFlight, isStrictAncestor a x = false) :=
  ⟨rfl, reach_pathsOneInFlight, step_paths_dispatch_b,
   no_dispatch_while_ancestor_in_flight.1 Unit Unit cfgPaths rfl
     pathsOneInFlight pathsTwoInFlight reach_pathsOneInFlight
     step_paths_dispatch_b⟩

theorem producer_failure_fatal_witness :
    cfgProdErr.streamErr = some "producer broke" ∧
      Reachable cfgProdErr (finalStateSeq cfgProdErr) ∧
      Final cfgProdErr (finalStateSeq cfgProdErr) ∧
      ((finalStateSeq cfgProdErr).prodFailed = true ∧
        (finalStateSeq cfgProdErr).inFlight = [] ∧
        (∀ p ∈ (finalStateSeq cfgProdErr).done,
          p.1 ∈ cfgProdErr.streamItems) ∧
        ∃ agg, aggregateError cfgProdErr (finalStateSeq cfgProdErr)
            = some agg ∧
          agg.producer_error = some "producer broke" ∧
          agg.failed = failures (finalStateSeq cfgProdErr)) :=
  ⟨rfl, reach_finalStateSeq cfgProdErr (by decide) (fun x => rfl),
   final_finalStateSeq cfgProdErr,
   producer_failure_fatal cfgProdErr (finalStateSeq cfgProdErr)
     "producer broke" rfl
     (reach_finalStateSeq cfgProdErr (by decide) (fun x => rfl))
     (final_finalStateSeq cfgProdErr)⟩

theorem aggregate_error_reports_every_failure_witness :
    (2 ≤ (failures (finalStateSeq cfgTwoFailures)).length) ∧
      ∃ agg, aggregateError cfgTwoFailures (finalStateSeq cfgTwoFailures)
          = some agg ∧
        agg.failed = failures (finalStateSeq cfgTwoFailures) ∧
        ∀ i eSup, (i, eSup) ∈ agg.failed ↔
          i ∈ cfgTwoFailures.streamItems ∧
            cfgTwoFailures.consume i = .error eSup :=
  ⟨by decide,
   aggregate_error_reports_every_failure cfgTwoFailures
     (finalStateSeq cfgTwoFailures) (by decide) rfl (fun x => rfl)
     (reach_finalStateSeq cfgTwoFailures (by decide) (fun x => rfl))
     (final_finalStateSeq cfgTwoFailures) (by decide)⟩

theorem bounded_concurrency_witness :
    (1 ≤ cfgPaths.jobs) ∧ Reachable cfgPaths pathsTwoInFlight ∧
      pathsTwoInFlight.inFlight.length ≤ cfgPaths.jobs :=
  ⟨by decide, reach_pathsTwoInFlight,
   bounded_concurrency cfgPaths pathsTwoInFlight (by decide)
     reach_pathsTwoInFlight⟩

theorem jobs1_refines_sequential_fold_witness :
    cfgJobs1.jobs = 1 ∧
      Reachable cfgJobs1 (finalStateSeq cfgJobs1) ∧
      Final cfgJobs1 (finalStateSeq cfgJobs1) ∧
      (released (finalStateSeq cfgJobs1) =
          (sequentialFold cfgJobs1.consume cfgJobs1.streamItems).1 ∧
        failures (finalStateSeq cfgJobs1) =
          (sequentialFold cfgJobs1.consume cfgJobs1.streamItems).2) :=
  ⟨rfl, reach_finalStateSeq cfgJobs1 (by decide) (fun x => rfl),
   final_finalStateSeq cfgJobs1,
   jobs1_refines_sequential_fold cfgJobs1 (finalStateSeq cfgJobs1) rfl rfl
     (fun x => rfl)
     (reach_finalStateSeq cfgJobs1 (by decide) (fun x => rfl))
     (final_finalStateSeq cfgJobs1)⟩

theorem error_status_records_pass_through_witness :
    (∀ i ∈ cfgStatus.streamItems, (cfgStatus.consume i).isOk = true) ∧
      (released (finalStateSeq cfgStatus) =
          cfgStatus.streamItems.flatMap
            (fun x => recordsOf (cfgStatus.consume x)) ∧
        failures (finalStateSeq cfgStatus) = [] ∧
        aggregateError cfgStatus (finalStateSeq cfgStatus) = none) :=
  ⟨by decide,
   error_status_records_pass_through cfgStatus (finalStateSeq cfgStatus)
     (by decide) rfl (fun x => rfl) (by decide)
     (reach_finalStateSeq cfgStatus (by decide) (fun x => rfl))
     (final_finalStateSeq cfgStatus)⟩

theorem failed_attribute_recovers_identities_witness :
    failures (finalStateSeq cfgInstall) ≠ [] ∧
      ∃ agg, aggregateError cfgInstall (finalStateSeq cfgInstall)
          = some agg ∧
        agg.failed = failures (finalStateSeq cfgInstall) ∧
        (agg.failed.map (fun p => identityOf p.1)).Perm
          ((cfgInstall.streamItems.filter
              (fun i => !(cfgInstall.consume i).isOk)).map identityOf) :=
  ⟨by decide,
   failed_attribute_recovers_identities cfgInstall
     (finalStateSeq cfgInstall) (by decide) rfl (fun x => rfl)
     (reach_finalStateSeq cfgInstall (by decide) (fun x => rfl))
     (final_finalStateSeq cfgInstall) (by decide)⟩

theorem construction_performs_no_work_witness :
    (pcInit cfgProdErr).pulled = [] ∧ (pcInit cfgProdErr).pending = [] ∧
      (pcInit cfgProdErr).inFlight = [] ∧
      (pcInit cfgProdErr).done = [] ∧
      (pcInit cfgProdErr).prodFailed = false ∧
      released (pcInit cfgProdErr) = [] ∧
      failures (pcInit cfgProdErr) = [] ∧
      aggregateError cfgProdErr (pcInit cfgProdErr) = none :=
  construction_performs_no_work cfgProdErr

end DataladParallel
